import Mathlib

/-!
Verification of the org-chart core (treeHelpers.js, EmployeeContext.jsx,
OrgChart.jsx) against its natural-language specification.

Shallow embedding conventions:
* An employee record is a structure with the five fields of the data model;
  the JavaScript `null`/`undefined` manager is `Option.none`, identifiers are
  naturals (the seed data uses numeric ids).
* `buildTree` is embedded through the id-level graph it constructs: the list
  of root ids and the children-id list of each node, both read off directly
  from the two passes of the source; the flattening of the resulting (possibly
  cyclic, because the source mutates shared node objects) forest is done with
  explicit fuel.
* The `while` loop of `getAllReports` is embedded as a fuel-indexed recursion
  on the explicit queue, returning `none` when the fuel is exhausted before
  the queue empties; `some out` means the source loop terminates with
  output `out`.
-/

namespace OrgChart

/-- An employee record: id, display name, role label, team label and the
parent (manager) reference, `none` standing for JavaScript `null`. -/
structure Employee where
  id : Nat
  name : String
  designation : String
  team : String
  managerId : Option Nat
deriving DecidableEq

/-- The identifiers of a record collection, in order. -/
def idsOf (es : List Employee) : List Nat := es.map (·.id)

/-- Whether some record of the collection carries identifier `m`; this is
`employeeMap.get(m)` being defined in `buildTree`'s lookup map. -/
def containsId (es : List Employee) (m : Nat) : Bool :=
  es.any (fun e => e.id == m)

/-- `employees.find((emp) => emp.id === id)` — first record with a given id
(`findEmployeeById` without the `|| null` default). -/
def findRecord (es : List Employee) (i : Nat) : Option Employee :=
  es.find? (fun e => e.id == i)

/-! ### buildTree (treeHelpers.js lines 6-38)

Pass 1 keys a node by each record's id (later records overwrite earlier ones
in the map).  Pass 2 pushes, for each record in order, the node keyed by its
id either onto `roots` (when `managerId` is null or does not resolve in the
map) or onto the children of the node keyed by `managerId`.  At the level of
identifiers this yields the two functions below. -/

/-- Whether pass 2 of `buildTree` pushes this record's node onto `roots`:
`managerId` is null, or no record carries the referenced id. -/
def isRootRecord (es : List Employee) (e : Employee) : Bool :=
  match e.managerId with
  | none => true
  | some m => !containsId es m

/-- The ids pushed onto `roots` by `buildTree`, in push order. -/
def buildTreeRoots (es : List Employee) : List Nat :=
  (es.filter (isRootRecord es)).map (·.id)

/-- The ids pushed onto the children array of the node keyed `i` by
`buildTree`, in push order: the records whose `managerId` is `i` when some
record carries id `i` (otherwise the lookup fails and nothing is pushed). -/
def buildTreeChildren (es : List Employee) (i : Nat) : List Nat :=
  if containsId es i then (es.filter (fun e => e.managerId == some i)).map (·.id)
  else []

/-- Preorder flattening of the ids of the `buildTree` node keyed `i`,
with explicit fuel bounding the depth explored (the source's node structure
can be cyclic, in which case no finite fuel exhausts it). -/
def buildTreeSubtreeIds (es : List Employee) : Nat → Nat → List Nat
  | 0, _ => []
  | fuel + 1, i => i :: ((buildTreeChildren es i).map (buildTreeSubtreeIds es fuel)).flatten

/-- All ids appearing in the forest returned by `buildTree`, each root
flattened with fuel `es.length` (enough to exhaust any acyclic forest over
`es`). -/
def buildTreeForestIds (es : List Employee) : List Nat :=
  ((buildTreeRoots es).map (buildTreeSubtreeIds es es.length)).flatten

/-! ### filterEmployees (treeHelpers.js lines 47-69) -/

/-- `hay.includes(needle)` on strings: `needle` occurs contiguously in
`hay`. -/
def strIncludes (hay needle : String) : Bool :=
  (List.range (hay.length + 1)).any
    (fun i => needle.toList.isPrefixOf (hay.toList.drop i))

/-- The search predicate of `filterEmployees`: the lowercased term occurs in
the lowercased name, designation or team, or in the decimal form of the
id. -/
def matchesSearch (term : String) (e : Employee) : Bool :=
  strIncludes e.name.toLower term ||
  strIncludes e.designation.toLower term ||
  strIncludes e.team.toLower term ||
  strIncludes (toString e.id) term

/-- `filterEmployees(employees, searchTerm, selectedTeam)`: the search filter
is applied only when `searchTerm` is truthy (non-empty), then the exact team
filter only when `selectedTeam` is truthy. -/
def filterEmployees (es : List Employee) (searchTerm selectedTeam : String) :
    List Employee :=
  let filtered := es
  let filtered :=
    if searchTerm == "" then filtered
    else filtered.filter (matchesSearch searchTerm.toLower)
  if selectedTeam == "" then filtered
  else filtered.filter (fun e => e.team == selectedTeam)

/-! ### getAllReports (treeHelpers.js lines 97-110) -/

/-- `employees.filter((emp) => emp.managerId === currentId)`. -/
def directReports (es : List Employee) (i : Nat) : List Employee :=
  es.filter (fun e => e.managerId == some i)

/-- The `while` loop of `getAllReports`, fuel-indexed: each step dequeues one
id, appends its direct reports to the output and enqueues their ids.
`some out` means the loop empties its queue within `fuel` iterations and the
source returns `out`; `none` means the fuel ran out first. -/
def getAllReportsAux (es : List Employee) : Nat → List Nat → Option (List Employee)
  | _, [] => some []
  | 0, _ :: _ => none
  | fuel + 1, currentId :: queue =>
    match getAllReportsAux es fuel
        (queue ++ (directReports es currentId).map (·.id)) with
    | none => none
    | some rest => some (directReports es currentId ++ rest)

/-! ### wouldCreateCircularReference (treeHelpers.js lines 119-128) -/

/-- `wouldCreateCircularReference(employees, employeeId, newManagerId)`:
`true` at once on self-parenting, otherwise `true` exactly when the new
manager's id occurs among `getAllReports(employees, employeeId)`.  The fuel
is passed through to the embedded loop. -/
def wouldCreateCircularReference (es : List Employee) (fuel : Nat)
    (employeeId newManagerId : Nat) : Option Bool :=
  if employeeId = newManagerId then some true
  else
    match getAllReportsAux es fuel [employeeId] with
    | none => none
    | some reports => some (reports.any (fun e => e.id == newManagerId))

/-! ### UPDATE_EMPLOYEE reducer case (EmployeeContext.jsx lines 175-183)

`state.employees.map((emp) => emp.id === action.payload.id ?
{ ...emp, ...action.payload.updates } : emp)` with
`updates = { managerId: newManagerId }`. -/

/-- The state update `updateEmployeeManager` dispatches: every record whose
id matches gets its manager reference replaced, every other record is kept
as is; positions are preserved by `map`. -/
def employeeReducerUpdate (es : List Employee) (employeeId newManagerId : Nat) :
    List Employee :=
  es.map (fun e =>
    if e.id = employeeId then { e with managerId := some newManagerId } else e)

/-! ### handleDragEnd (OrgChart.jsx lines 58-81)

The drag pipeline: a missing drop target or a drop on itself is a silent
return; otherwise the Integrity Guard runs on the full collection and a
reported cycle aborts with the alert (state untouched); otherwise the
reducer update is dispatched.  The network call is outside the embedded
core. -/

/-- Outcome of a drag gesture: silent early return, rejection by the cycle
check, or an applied re-parenting. -/
inductive DragOutcome where
  | noop
  | rejected
  | applied
deriving DecidableEq

/-- `handleDragEnd` at the state level: the retained collection and the
outcome.  `none` propagates fuel exhaustion of the embedded cycle check. -/
def handleDragEnd (es : List Employee) (fuel : Nat) (activeId : Nat)
    (over : Option Nat) : Option (List Employee × DragOutcome) :=
  match over with
  | none => some (es, DragOutcome.noop)
  | some overId =>
    if activeId = overId then some (es, DragOutcome.noop)
    else
      match wouldCreateCircularReference es fuel activeId overId with
      | none => none
      | some true => some (es, DragOutcome.rejected)
      | some false =>
        some (employeeReducerUpdate es activeId overId, DragOutcome.applied)

/-! ### The parent relation and acyclicity

The spec's invariant speaks of the parent relation restricted to records
whose parent reference resolves.  `hasEdge es j m` is one step of that
relation (`j` is a record's id, `m` its resolved manager), `UpN es d j m`
is a `d`-step walk, and `PathAcyclic` says no id walks back to itself.
`RankedAcyclic` is the equivalent rank-function form (a topological rank
exists exactly for the finite acyclic relations); `ranked_acyclic` and
`acyclic_ranked` below prove the two forms equivalent, and the main theorems
take plain `PathAcyclic`. -/

/-- One step of the resolved parent relation: some record has id `j` and a
manager reference `m` carried by some record. -/
def hasEdge (es : List Employee) (j m : Nat) : Prop :=
  ∃ e, e ∈ es ∧ e.id = j ∧ e.managerId = some m ∧ containsId es m = true

/-- `d`-step walks of the resolved parent relation. -/
def UpN (es : List Employee) : Nat → Nat → Nat → Prop
  | 0, j, m => j = m
  | d + 1, j, m => ∃ k, hasEdge es j k ∧ UpN es d k m

/-- Acyclicity of the resolved parent relation: no identifier reaches itself
by a non-empty walk. -/
def PathAcyclic (es : List Employee) : Prop :=
  ∀ j d, ¬ UpN es (d + 1) j j

/-- Checks that `rank` is a topological rank for the resolved parent
relation: every resolved manager ranks strictly below its report. -/
def rankOk (es : List Employee) (rank : Nat → Nat) : Bool :=
  es.all (fun e =>
    e.managerId.all (fun m => !containsId es m || decide (rank m < rank e.id)))

/-- Existence of a topological rank for the resolved parent relation. -/
def RankedAcyclic (es : List Employee) : Prop :=
  ∃ rank : Nat → Nat, rankOk es rank = true

/-- Iteration of a partial step function (used for walking manager chains in
the proofs). -/
def iterOpt (f : Nat → Option Nat) : Nat → Nat → Option Nat
  | 0, i => some i
  | t + 1, i => (f i).bind (iterOpt f t)

/-- The parent step of the `buildTree` graph: the manager reference of the
first record with id `i`, provided it resolves (otherwise the record is a
root and has no tree parent). -/
def treeParent (es : List Employee) (i : Nat) : Option Nat :=
  (findRecord es i).bind
    (fun e => e.managerId.bind (fun m => if containsId es m then some m else none))

/-- The raw manager step: the manager reference of the first record with id
`i`, resolved or not. -/
def mgrStep (es : List Employee) (i : Nat) : Option Nat :=
  (findRecord es i).bind (·.managerId)

/-! ### Breadth-first enumeration, modelled from the spec

For the refinement claim about `getAllReports` the spec's description is
embedded separately: level 0 holds the records whose parent reference equals
`rootId`, level `k+1` holds the direct reports of each level-`k` record in
order, and the enumeration is the concatenation of the levels until an empty
one is reached. -/

/-- Level `k` of the spec's breadth-first enumeration from `rootId`. -/
def specLevel (es : List Employee) (rootId : Nat) : Nat → List Employee
  | 0 => directReports es rootId
  | k + 1 => (specLevel es rootId k).flatMap (fun p => directReports es p.id)

/-- The first `L` levels of the spec's breadth-first enumeration,
concatenated in level order. -/
def specEnum (es : List Employee) (rootId : Nat) (L : Nat) : List Employee :=
  (List.range L).flatMap (specLevel es rootId)

/-! ### Concrete collections used to instantiate the theorems -/

/-- Root of the five-record chain scenario of the spec. -/
def mark : Employee := ⟨1, "mark", "ceo", "executive", none⟩

/-- Reports to 1. -/
def joe : Employee := ⟨2, "joe", "cto", "technology", some 1⟩

/-- Reports to 1. -/
def linda : Employee := ⟨3, "linda", "cbo", "business", some 1⟩

/-- Reports to 2. -/
def john : Employee := ⟨4, "john", "pm", "technology", some 2⟩

/-- Reports to 4. -/
def ron : Employee := ⟨5, "ron", "dev", "technology", some 4⟩

/-- The five-record chain of the spec's concrete scenario:
1 root, 2 → 1, 3 → 1, 4 → 2, 5 → 4. -/
def sample : List Employee := [mark, joe, linda, john, ron]

/-- A single-record collection whose parent reference does not resolve. -/
def orphanOnly : List Employee := [⟨7, "o", "r", "t", some 42⟩]

/-- One record reporting to id 1 (which carries no record). -/
def oneReport : List Employee := [⟨2, "b", "r", "t", some 1⟩]

/-- A collection containing only `mark`. -/
def markOnly : List Employee := [mark]

/-- Two records whose resolved parent references form a cycle. -/
def cycPair : List Employee := [⟨1, "a", "r", "t", some 2⟩, ⟨2, "b", "r", "t", some 1⟩]

/-- Two records sharing the identifier 1, the second reporting to it. -/
def dupPair : List Employee := [⟨1, "a", "r", "t", none⟩, ⟨1, "b", "r", "t", some 1⟩]

/-- A record reporting to id 0, listed twice (a duplicate parent edge). -/
def dupRec : Employee := ⟨1, "a", "r", "t", some 0⟩

/-- The pathological collection with a duplicate parent edge. -/
def dupRecs : List Employee := [dupRec, dupRec]

/-! ## Bridge lemmas -/

theorem containsId_eq_true_iff {es : List Employee} {m : Nat} :
    containsId es m = true ↔ ∃ e ∈ es, e.id = m := by
  simp [containsId]

theorem containsId_eq_false_iff {es : List Employee} {m : Nat} :
    containsId es m = false ↔ ∀ e ∈ es, e.id ≠ m := by
  simp [containsId]

/-- The reducer update is the identity when no record carries the target
identifier. -/
theorem reducerUpdate_unknown {es : List Employee} {employeeId newManagerId : Nat}
    (h : ∀ e ∈ es, e.id ≠ employeeId) :
    employeeReducerUpdate es employeeId newManagerId = es := by
  unfold employeeReducerUpdate
  have hcong : ∀ e ∈ es,
      (if e.id = employeeId then { e with managerId := some newManagerId } else e) = e :=
    fun e he => if_neg (h e he)
  calc es.map _ = es.map id := List.map_congr_left hcong
    _ = es := List.map_id es

/-! ## C9 — empty filters are the identity -/

/-- C9: `filterEmployees` with empty search text and empty team filter
returns the collection unchanged — same records, same order, nothing
dropped or duplicated. -/
theorem filterEmployees_empty_filters (es : List Employee) :
    filterEmployees es "" "" = es := rfl

/-! ## C7 — unknown-target update is a silent no-op -/

/-- C7: applying the `UPDATE_EMPLOYEE` state update with a target identifier
matching no record returns the collection unchanged; the reducer is total,
so no error is raised — the unknown-target case is a silent no-op. -/
theorem employeeReducerUpdate_unknown_noop (es : List Employee)
    (employeeId newManagerId : Nat) (h : ∀ e ∈ es, e.id ≠ employeeId) :
    employeeReducerUpdate es employeeId newManagerId = es :=
  reducerUpdate_unknown h

/-- Witness for C7 on a concrete collection and an absent identifier. -/
theorem employeeReducerUpdate_unknown_noop_witness :
    employeeReducerUpdate sample 99 1 = sample :=
  employeeReducerUpdate_unknown_noop sample 99 1 (by decide)

/-! ## C8 — root policy of buildTree -/

/-- C8: in the forest built by `buildTree`, a record with absent parent
reference is always a root, and a record whose parent reference resolves to
no record of the collection is always a root. -/
theorem buildTree_root_policy (es : List Employee) (e : Employee) (he : e ∈ es) :
    (e.managerId = none → e.id ∈ buildTreeRoots es) ∧
    (∀ m, e.managerId = some m → (∀ p ∈ es, p.id ≠ m) →
      e.id ∈ buildTreeRoots es) := by
  have hmem : isRootRecord es e = true → e.id ∈ buildTreeRoots es := by
    intro hr
    exact List.mem_map.2 ⟨e, List.mem_filter.2 ⟨he, hr⟩, rfl⟩
  refine ⟨fun hnone => hmem ?_, fun m hsome horphan => hmem ?_⟩
  · simp [isRootRecord, hnone]
  · simp [isRootRecord, hsome, containsId_eq_false_iff.2 horphan]

/-- Witness for C8: the absent-parent record of `sample` and the orphan of
`orphanOnly` both end up roots. -/
theorem buildTree_root_policy_witness :
    (1 : Nat) ∈ buildTreeRoots sample ∧ (7 : Nat) ∈ buildTreeRoots orphanOnly := by
  refine ⟨(buildTree_root_policy sample mark (by decide)).1 rfl, ?_⟩
  exact (buildTree_root_policy orphanOnly ⟨7, "o", "r", "t", some 42⟩ (by decide)).2
    42 rfl (by decide)

/-! ## C1 — the cycle check agrees with the descendant enumeration -/

/-- C1: whenever `getAllReports` terminates on `x` (the loop empties its
queue within the given fuel, with output `out`), the cycle check returns a
boolean that is `true` exactly when `x = y` or `y` occurs among the
identifiers of `out`, and `false` in every other case; on `x = y` it is
`true` outright. -/
theorem wouldCreateCircularReference_spec (es : List Employee) (fuel x y : Nat)
    (out : List Employee) (h : getAllReportsAux es fuel [x] = some out) :
    ∃ b, wouldCreateCircularReference es fuel x y = some b ∧
      (b = true ↔ (x = y ∨ y ∈ out.map (·.id))) := by
  by_cases hxy : x = y
  · refine ⟨true, ?_, by simp [hxy]⟩
    unfold wouldCreateCircularReference
    rw [if_pos hxy]
  · refine ⟨out.any (fun e => e.id == y), ?_, ?_⟩
    · unfold wouldCreateCircularReference
      rw [if_neg hxy, h]
    · simp [hxy, List.any_eq_true, List.mem_map]

/-- Witness for C1 on the sample chain: the reports of 2 are 4 then 5, and
moving 2 under 5 is flagged as a cycle. -/
theorem wouldCreateCircularReference_spec_witness :
    ∃ b, wouldCreateCircularReference sample 10 2 5 = some b ∧
      (b = true ↔ ((2 : Nat) = 5 ∨ (5 : Nat) ∈ [john, ron].map (·.id))) :=
  wouldCreateCircularReference_spec sample 10 2 5 [john, ron] (by decide)

/-! ## C4 — cycle rejection retains the collection unchanged -/

/-- C4: when the Integrity Guard reports a cycle on a drag request, the
pipeline rejects the move (self-drops are silently dropped even earlier) and
the retained collection is the input collection itself, record for record —
no partial mutation is applied. -/
theorem handleDragEnd_cycle_rejected (es : List Employee) (fuel activeId overId : Nat)
    (h : wouldCreateCircularReference es fuel activeId overId = some true) :
    (activeId = overId →
      handleDragEnd es fuel activeId (some overId) = some (es, DragOutcome.noop)) ∧
    (activeId ≠ overId →
      handleDragEnd es fuel activeId (some overId) = some (es, DragOutcome.rejected)) := by
  constructor
  · intro heq; simp [handleDragEnd, heq]
  · intro hne; simp [handleDragEnd, hne, h]

/-- Witness for C4: dragging 1 onto its descendant 2 in `oneReport` is
rejected with the collection untouched. -/
theorem handleDragEnd_cycle_rejected_witness :
    handleDragEnd oneReport 3 1 (some 2) = some (oneReport, DragOutcome.rejected) :=
  (handleDragEnd_cycle_rejected oneReport 3 1 2 (by decide)).2 (by decide)

/-! ## C2 and C3 — counterexamples -/

/-- Counterexample to C2 as stated: on the cyclic two-record collection the
forest built by `buildTree` has no roots at all, so its total node count is
0, not 2; and on the duplicated-identifier collection the identifier 1
appears twice in the forest rather than exactly once. -/
theorem buildTree_completeness_counterexample :
    (buildTreeForestIds cycPair).length ≠ cycPair.length ∧
    (buildTreeForestIds dupPair).count 1 ≠ 1 := by decide

/-- Counterexample to C3 as stated: on the duplicate-parent-edge collection
`[dupRec, dupRec]` the loop terminates and returns the record `dupRec`
twice, violating the at-most-once guarantee. -/
theorem getAllReports_at_most_once_counterexample :
    getAllReportsAux dupRecs 4 [0] = some [dupRec, dupRec] ∧
    ([dupRec, dupRec].count dupRec ≤ 1 → False) := by
  constructor
  · decide
  · decide

/-! ## C6 — no NotFoundError exists in the pipeline -/

/-- Counterexample to C6 as stated: re-parenting the absent identifier 99
under the existing record 1 does not fail with any error — the pipeline
reports an applied move and the collection is returned unchanged. -/
theorem reparent_notFound_counterexample :
    handleDragEnd markOnly 5 99 (some 1) = some (markOnly, DragOutcome.applied) := by
  decide

/-- C6 amended: the pipeline performs no existence validation and has no
NotFoundError outcome at all; whichever outcome a drag request produces,
if the moved identifier matches no record the retained collection equals
the input collection (the unknown-target update is a silent no-op). -/
theorem reparent_no_notFound (es : List Employee) (fuel activeId overId : Nat)
    (es' : List Employee) (r : DragOutcome)
    (h : handleDragEnd es fuel activeId (some overId) = some (es', r))
    (hunknown : ∀ e ∈ es, e.id ≠ activeId) : es' = es := by
  unfold handleDragEnd at h
  by_cases hao : activeId = overId
  · simp [hao] at h
    exact h.1.symm
  · simp [hao] at h
    rcases hw : wouldCreateCircularReference es fuel activeId overId with _ | b
    · rw [hw] at h; cases h
    · rw [hw] at h
      cases b
      · simp at h
        rw [← h.1, reducerUpdate_unknown hunknown]
      · simp at h
        exact h.1.symm

/-- Witness for C6 (amended) at a concrete unknown identifier. -/
theorem reparent_no_notFound_witness : markOnly = markOnly :=
  reparent_no_notFound markOnly 5 99 1 markOnly DragOutcome.applied
    (by decide) (by decide)

/-! ## C5 — frame property of a successful re-parenting -/

/-- C5: when the drag pipeline applies a re-parenting, the resulting
collection has the same length, every position holding a record of a
different identifier is unchanged (field for field, and relative order is
preserved since positions are preserved), and every position holding the
target identifier has exactly its manager reference replaced by the drop
target. -/
theorem handleDragEnd_applied_frame (es : List Employee) (fuel activeId overId : Nat)
    (es' : List Employee)
    (h : handleDragEnd es fuel activeId (some overId) = some (es', DragOutcome.applied)) :
    es'.length = es.length ∧
    ∀ (i : Nat) (e : Employee), es[i]? = some e →
      (e.id ≠ activeId → es'[i]? = some e) ∧
      (e.id = activeId → es'[i]? = some { e with managerId := some overId }) := by
  have hes' : es' = employeeReducerUpdate es activeId overId := by
    unfold handleDragEnd at h
    by_cases hao : activeId = overId
    · simp [hao] at h
    · simp [hao] at h
      rcases hw : wouldCreateCircularReference es fuel activeId overId with _ | b
      · rw [hw] at h; cases h
      · rw [hw] at h
        cases b
        · simp at h; exact h.symm
        · simp at h
  subst hes'
  refine ⟨by simp [employeeReducerUpdate], fun i e hie => ?_⟩
  constructor
  · intro hne
    simp [employeeReducerUpdate, List.getElem?_map, hie, hne]
  · intro heq
    simp [employeeReducerUpdate, List.getElem?_map, hie, heq]

/-- Witness for C5: moving 5 under 3 in the sample chain succeeds and the
frame property holds there. -/
theorem handleDragEnd_applied_frame_witness :
    [mark, joe, linda, john, ⟨5, "ron", "dev", "technology", some 3⟩].length
        = sample.length ∧
    ∀ (i : Nat) (e : Employee), sample[i]? = some e →
      (e.id ≠ 5 →
        [mark, joe, linda, john, ⟨5, "ron", "dev", "technology", some 3⟩][i]? = some e) ∧
      (e.id = 5 →
        [mark, joe, linda, john, ⟨5, "ron", "dev", "technology", some 3⟩][i]?
          = some { e with managerId := some 3 }) :=
  handleDragEnd_applied_frame sample 10 5 3 _ (by decide)

/-! ## Acyclicity: walks, ranks, and their equivalence -/

theorem upN_trans {es : List Employee} :
    ∀ {a b j k m}, UpN es a j k → UpN es b k m → UpN es (a + b) j m := by
  intro a
  induction a with
  | zero => intro b j k m hjk hkm; cases hjk; simpa using hkm
  | succ a ih =>
    intro b j k m hjk hkm
    obtain ⟨z, hz, hrest⟩ := hjk
    have harith : a + 1 + b = (a + b) + 1 := by omega
    rw [harith]
    exact ⟨z, hz, ih hrest hkm⟩

theorem rankOk_spec {es : List Employee} {rank : Nat → Nat}
    (hok : rankOk es rank = true) :
    ∀ e ∈ es, ∀ m, e.managerId = some m → containsId es m = true →
      rank m < rank e.id := by
  intro e he m hm hc
  have h1 := List.all_eq_true.1 hok e he
  rw [hm, Option.all_some, hc] at h1
  simpa using h1

theorem rank_lt_of_upN {es : List Employee} {rank : Nat → Nat}
    (hok : rankOk es rank = true) :
    ∀ d j m, UpN es (d + 1) j m → rank m < rank j := by
  intro d
  induction d with
  | zero =>
    intro j m h
    obtain ⟨k, ⟨e, he, heid, hem, hc⟩, hk⟩ := h
    have hk' : k = m := hk
    subst hk'
    exact heid ▸ rankOk_spec hok e he k hem hc
  | succ d ih =>
    intro j m h
    obtain ⟨k, ⟨e, he, heid, hem, hc⟩, hrest⟩ := h
    exact (ih k m hrest).trans (heid ▸ rankOk_spec hok e he k hem hc)

/-- A topological rank refutes every non-empty walk from an id to itself. -/
theorem ranked_pathAcyclic {es : List Employee} (h : RankedAcyclic es) :
    PathAcyclic es := by
  obtain ⟨rank, hok⟩ := h
  intro j d hup
  exact lt_irrefl _ (rank_lt_of_upN hok d j j hup)

/-- Conversely, the (finite) resolved parent relation admits a topological
rank as soon as it is acyclic: rank an id by how many ids it can walk to. -/
theorem pathAcyclic_ranked {es : List Employee} (hpa : PathAcyclic es) :
    RankedAcyclic es := by
  classical
  refine ⟨fun j => ((idsOf es).toFinset.filter (fun m => ∃ d, UpN es (d + 1) j m)).card, ?_⟩
  rw [rankOk, List.all_eq_true]
  intro e he
  cases hm : e.managerId with
  | none => rfl
  | some m =>
    rw [Option.all_some]
    by_cases hc : containsId es m = true
    · rw [hc]
      simp only [Bool.not_true, Bool.false_or, decide_eq_true_eq]
      have hedge : hasEdge es e.id m := ⟨e, he, rfl, hm, hc⟩
      apply Finset.card_lt_card
      rw [Finset.ssubset_iff_of_subset]
      · refine ⟨m, Finset.mem_filter.2 ⟨?_, 0, m, hedge, rfl⟩, fun hmem => ?_⟩
        · obtain ⟨e', he', hid⟩ := containsId_eq_true_iff.1 hc
          exact List.mem_toFinset.2 (List.mem_map.2 ⟨e', he', hid⟩)
        · obtain ⟨d, hup⟩ := (Finset.mem_filter.1 hmem).2
          exact hpa m d hup
      · intro z hz
        obtain ⟨hzmem, d, hup⟩ := Finset.mem_filter.1 hz
        exact Finset.mem_filter.2 ⟨hzmem, d + 1, m, hedge, hup⟩
    · rw [Bool.not_eq_true] at hc
      rw [hc]
      rfl

/-! ## Termination measure for the getAllReports loop -/

/-- Number of ids of the collection ranking strictly below `i`. -/
def rankPos (es : List Employee) (rank : Nat → Nat) (i : Nat) : Nat :=
  ((idsOf es).toFinset.filter (fun j => rank j < rank i)).card

/-- Exponent of the weight assigned to a queue entry: known ids get
`n - rankPos`, a foreign start id sits above them all. -/
def rankExpo (es : List Employee) (rank : Nat → Nat) (i : Nat) : Nat :=
  if containsId es i then es.length - rankPos es rank i else es.length + 1

/-- Total weight of a queue: the loop strictly decreases it each step. -/
def queueWeight (es : List Employee) (rank : Nat → Nat) (q : List Nat) : Nat :=
  (q.map (fun i => (es.length + 1) ^ rankExpo es rank i)).sum

theorem getAllReportsAux_nil (es : List Employee) (fuel : Nat) :
    getAllReportsAux es fuel [] = some [] := by
  cases fuel <;> rfl

theorem getAllReportsAux_cons (es : List Employee) (fuel c : Nat) (q : List Nat) :
    getAllReportsAux es (fuel + 1) (c :: q) =
      match getAllReportsAux es fuel (q ++ (directReports es c).map (·.id)) with
      | none => none
      | some rest => some (directReports es c ++ rest) := rfl

theorem rankPos_lt_length {es : List Employee} (rank : Nat → Nat) {i : Nat}
    (hi : containsId es i = true) : rankPos es rank i < es.length := by
  classical
  have himem : i ∈ (idsOf es).toFinset := by
    obtain ⟨e, he, hid⟩ := containsId_eq_true_iff.1 hi
    exact List.mem_toFinset.2 (List.mem_map.2 ⟨e, he, hid⟩)
  have hsub : (idsOf es).toFinset.filter (fun j => rank j < rank i) ⊆
      (idsOf es).toFinset.erase i := by
    intro z hz
    obtain ⟨hzmem, hzr⟩ := Finset.mem_filter.1 hz
    exact Finset.mem_erase.2 ⟨fun hzi => absurd (hzi ▸ hzr) (lt_irrefl _), hzmem⟩
  have h1 : rankPos es rank i ≤ (idsOf es).toFinset.card - 1 := by
    have := Finset.card_le_card hsub
    rwa [Finset.card_erase_of_mem himem] at this
  have h2 : (idsOf es).toFinset.card ≤ es.length := by
    have := (idsOf es).toFinset_card_le
    simpa [idsOf] using this
  have h3 : 0 < (idsOf es).toFinset.card := Finset.card_pos.2 ⟨i, himem⟩
  omega

theorem rankPos_lt_of_edge {es : List Employee} {rank : Nat → Nat}
    (hok : rankOk es rank = true) {e : Employee} (he : e ∈ es) {m : Nat}
    (hm : e.managerId = some m) (hc : containsId es m = true) :
    rankPos es rank m < rankPos es rank e.id := by
  classical
  have hr : rank m < rank e.id := rankOk_spec hok e he m hm hc
  apply Finset.card_lt_card
  rw [Finset.ssubset_iff_of_subset]
  · refine ⟨m, Finset.mem_filter.2 ⟨?_, hr⟩, fun hmem => ?_⟩
    · obtain ⟨e', he', hid⟩ := containsId_eq_true_iff.1 hc
      exact List.mem_toFinset.2 (List.mem_map.2 ⟨e', he', hid⟩)
    · exact absurd (Finset.mem_filter.1 hmem).2 (lt_irrefl _)
  · intro z hz
    obtain ⟨hzmem, hzr⟩ := Finset.mem_filter.1 hz
    exact Finset.mem_filter.2 ⟨hzmem, hzr.trans hr⟩

/-- Dequeuing `c` enqueues ids whose total weight is strictly below the
weight of `c`. -/
theorem weight_step {es : List Employee} {rank : Nat → Nat}
    (hok : rankOk es rank = true) (c : Nat) :
    queueWeight es rank ((directReports es c).map (·.id)) <
      (es.length + 1) ^ rankExpo es rank c := by
  classical
  set n := es.length with hn
  have hexpo_pos : 1 ≤ rankExpo es rank c := by
    rw [rankExpo]
    by_cases hc : containsId es c = true
    · rw [if_pos hc]
      have := rankPos_lt_length rank hc
      omega
    · rw [if_neg hc]; omega
  have hbound : ∀ e ∈ directReports es c,
      (n + 1) ^ rankExpo es rank e.id ≤ (n + 1) ^ (rankExpo es rank c - 1) := by
    intro e hde
    have hmem := List.mem_filter.1 hde
    have he : e ∈ es := hmem.1
    have hmid : e.managerId = some c := by simpa using hmem.2
    have hid : containsId es e.id = true :=
      containsId_eq_true_iff.2 ⟨e, he, rfl⟩
    have hle : rankExpo es rank e.id ≤ rankExpo es rank c - 1 := by
      rw [rankExpo, if_pos hid, rankExpo]
      by_cases hc : containsId es c = true
      · rw [if_pos hc]
        have h1 := rankPos_lt_of_edge hok he hmid hc
        have h2 := rankPos_lt_length rank hc
        omega
      · rw [if_neg hc]
        have := rankPos_lt_length rank hid
        omega
    exact Nat.pow_le_pow_right (Nat.succ_le_succ (Nat.zero_le n)) hle
  have hsum : queueWeight es rank ((directReports es c).map (·.id)) ≤
      (directReports es c).length * (n + 1) ^ (rankExpo es rank c - 1) := by
    rw [queueWeight]
    have hforall : ∀ x ∈ ((directReports es c).map (·.id)).map
        (fun i => (n + 1) ^ rankExpo es rank i),
        x ≤ (n + 1) ^ (rankExpo es rank c - 1) := by
      intro x hx
      obtain ⟨i, hi, hxi⟩ := List.mem_map.1 hx
      obtain ⟨e, he, hei⟩ := List.mem_map.1 hi
      subst hxi
      subst hei
      exact hbound e he
    calc (((directReports es c).map (·.id)).map
            (fun i => (n + 1) ^ rankExpo es rank i)).sum
        ≤ (((directReports es c).map (·.id)).map
            (fun i => (n + 1) ^ rankExpo es rank i)).length •
            ((n + 1) ^ (rankExpo es rank c - 1)) :=
          List.sum_le_card_nsmul _ _ hforall
      _ = (directReports es c).length * (n + 1) ^ (rankExpo es rank c - 1) := by
          simp [smul_eq_mul]
  have hlen : (directReports es c).length ≤ n := by
    rw [hn]
    exact List.length_filter_le _ es
  have hpow : 0 < (n + 1) ^ (rankExpo es rank c - 1) :=
    Nat.pos_pow_of_pos _ (Nat.succ_pos n)
  have hfinal : (directReports es c).length * (n + 1) ^ (rankExpo es rank c - 1) <
      (n + 1) ^ rankExpo es rank c := by
    have h1 : (directReports es c).length * (n + 1) ^ (rankExpo es rank c - 1) <
        (n + 1) * (n + 1) ^ (rankExpo es rank c - 1) :=
      Nat.mul_lt_mul_of_lt_of_le (Nat.lt_succ_of_le hlen) (le_refl _) hpow
    have h2 : (n + 1) * (n + 1) ^ (rankExpo es rank c - 1) =
        (n + 1) ^ rankExpo es rank c := by
      rw [← pow_succ']
      congr 1
      omega
    omega
  omega

/-- With fuel exceeding the initial queue weight, the loop terminates. -/
theorem getAllReportsAux_total {es : List Employee} {rank : Nat → Nat}
    (hok : rankOk es rank = true) :
    ∀ fuel q, queueWeight es rank q < fuel →
      ∃ out, getAllReportsAux es fuel q = some out := by
  intro fuel
  induction fuel using Nat.strong_induction_on with
  | _ fuel ih =>
    intro q hq
    match q with
    | [] => exact ⟨[], getAllReportsAux_nil es fuel⟩
    | c :: q' =>
      have hwc : 0 < (es.length + 1) ^ rankExpo es rank c :=
        Nat.pos_pow_of_pos _ (Nat.succ_pos _)
      have hqc : queueWeight es rank (c :: q') =
          (es.length + 1) ^ rankExpo es rank c + queueWeight es rank q' := by
        simp [queueWeight]
      match fuel, hq with
      | f + 1, hq =>
        have hstep : queueWeight es rank (q' ++ (directReports es c).map (·.id)) <
            queueWeight es rank (c :: q') := by
          have hsplit : queueWeight es rank (q' ++ (directReports es c).map (·.id)) =
              queueWeight es rank q' +
                queueWeight es rank ((directReports es c).map (·.id)) := by
            simp [queueWeight]
          have := weight_step hok c
          omega
        obtain ⟨out, hout⟩ := ih f (by omega)
          (q' ++ (directReports es c).map (·.id)) (by omega)
        exact ⟨directReports es c ++ out, by rw [getAllReportsAux_cons, hout]⟩

/-! ## C10 — termination on acyclic collections -/

/-- C10: on a collection whose resolved parent relation is acyclic, the
`getAllReports` loop terminates for every starting identifier (its queue
empties within some finite fuel), and consequently the cycle check
`wouldCreateCircularReference` also returns for all arguments. -/
theorem getAllReports_terminates (es : List Employee) (hac : PathAcyclic es) :
    (∀ x : Nat, ∃ fuel out, getAllReportsAux es fuel [x] = some out) ∧
    (∀ x y : Nat, ∃ fuel b, wouldCreateCircularReference es fuel x y = some b) := by
  obtain ⟨rank, hok⟩ := pathAcyclic_ranked hac
  have hterm : ∀ x : Nat, ∃ fuel out, getAllReportsAux es fuel [x] = some out :=
    fun x => ⟨queueWeight es rank [x] + 1, getAllReportsAux_total hok _ [x] (by omega)⟩
  refine ⟨hterm, fun x y => ?_⟩
  by_cases hxy : x = y
  · exact ⟨0, true, by rw [wouldCreateCircularReference, if_pos hxy]⟩
  · obtain ⟨fuel, out, hout⟩ := hterm x
    exact ⟨fuel, out.any (fun e => e.id == y),
      by rw [wouldCreateCircularReference, if_neg hxy, hout]⟩

/-- Witness for C10 on the sample chain (ranked by the identity, which is
topological there). -/
theorem getAllReports_terminates_witness :
    (∀ x : Nat, ∃ fuel out, getAllReportsAux sample fuel [x] = some out) ∧
    (∀ x y : Nat, ∃ fuel b, wouldCreateCircularReference sample fuel x y = some b) :=
  getAllReports_terminates sample (ranked_pathAcyclic ⟨fun i => i, by decide⟩)

/-! ## C3 — the loop output is the spec's level-by-level enumeration

`aux_split` shows that processing a prefix of the queue emits exactly the
direct reports of that prefix, in order, and continues with those reports'
ids enqueued; iterating it turns a terminating run into a concatenation of
levels. -/

/-- Direct reports of a whole queue of ids, in queue order. -/
def reportsOfIds (es : List Employee) (q : List Nat) : List Employee :=
  q.flatMap (directReports es)

/-- The queue contents when the loop has completed `L` whole rounds of the
initial queue. -/
def frontQueue (es : List Employee) (q : List Nat) : Nat → List Nat
  | 0 => q
  | L + 1 => frontQueue es ((reportsOfIds es q).map (·.id)) L

/-- The output emitted during the first `L` whole rounds. -/
def joinLevels (es : List Employee) (q : List Nat) : Nat → List Employee
  | 0 => []
  | L + 1 => reportsOfIds es q ++ joinLevels es ((reportsOfIds es q).map (·.id)) L

theorem aux_split (es : List Employee) (f : Nat) :
    ∀ q1 q2, getAllReportsAux es (q1.length + f) (q1 ++ q2) =
      (getAllReportsAux es f (q2 ++ (reportsOfIds es q1).map (·.id))).map
        (fun rest => reportsOfIds es q1 ++ rest) := by
  intro q1
  induction q1 with
  | nil =>
    intro q2
    simp only [List.length_nil, Nat.zero_add, List.nil_append, reportsOfIds,
      List.flatMap_nil, List.map_nil, List.append_nil]
    cases getAllReportsAux es f q2 <;> rfl
  | cons c t ih =>
    intro q2
    have harith : (c :: t).length + f = (t.length + f) + 1 := by
      simp only [List.length_cons]; omega
    rw [harith, List.cons_append, getAllReportsAux_cons, List.append_assoc,
      ih (q2 ++ (directReports es c).map (·.id))]
    have hrep : reportsOfIds es (c :: t) = directReports es c ++ reportsOfIds es t := by
      simp [reportsOfIds]
    simp only [hrep, List.map_append, List.append_assoc]
    cases getAllReportsAux es f
        (q2 ++ ((directReports es c).map (·.id) ++ (reportsOfIds es t).map (·.id))) with
    | none => rfl
    | some rest => rfl

theorem aux_fuel_ge {es : List Employee} :
    ∀ {f q out}, getAllReportsAux es f q = some out → q.length ≤ f := by
  intro f
  induction f with
  | zero =>
    intro q out h
    cases q with
    | nil => simp
    | cons c q' => cases h
  | succ f ih =>
    intro q out h
    cases q with
    | nil => simp
    | cons c q' =>
      rw [getAllReportsAux_cons] at h
      cases hin : getAllReportsAux es f (q' ++ (directReports es c).map (·.id)) with
      | none => rw [hin] at h; cases h
      | some rest =>
        have := ih hin
        simp only [List.length_append] at this
        simp only [List.length_cons]
        omega

theorem aux_some_characterize {es : List Employee} :
    ∀ f q out, getAllReportsAux es f q = some out →
      ∃ L, out = joinLevels es q L ∧ frontQueue es q L = [] := by
  intro f
  induction f using Nat.strong_induction_on with
  | _ f ih =>
    intro q out h
    cases q with
    | nil =>
      rw [getAllReportsAux_nil] at h
      cases h
      exact ⟨0, rfl, rfl⟩
    | cons c q' =>
      have hge := aux_fuel_ge h
      have harith : f = (c :: q').length + (f - (c :: q').length) := by omega
      have hsplit := aux_split es (f - (c :: q').length) (c :: q') []
      simp only [List.append_nil, List.nil_append] at hsplit
      rw [harith, hsplit] at h
      cases hin : getAllReportsAux es (f - (c :: q').length)
          ((reportsOfIds es (c :: q')).map (·.id)) with
      | none => rw [hin] at h; cases h
      | some out' =>
        rw [hin] at h
        have hout : out = reportsOfIds es (c :: q') ++ out' := by
          cases h; rfl
        have hlt : f - (c :: q').length < f := by
          simp only [List.length_cons] at hge ⊢; omega
        obtain ⟨L', hL1, hL2⟩ := ih _ hlt _ _ hin
        refine ⟨L' + 1, ?_, ?_⟩
        · rw [hout, hL1]
          simp [joinLevels]
        · show frontQueue es ((reportsOfIds es (c :: q')).map (·.id)) L' = []
          exact hL2

/-! Bridging the queue rounds with the spec's per-root levels. -/

theorem frontQueue_succ (es : List Employee) :
    ∀ L q, frontQueue es q (L + 1) =
      (reportsOfIds es (frontQueue es q L)).map (·.id) := by
  intro L
  induction L with
  | zero => intro q; rfl
  | succ L ih =>
    intro q
    show frontQueue es ((reportsOfIds es q).map (·.id)) (L + 1) = _
    rw [ih]
    rfl

theorem joinLevels_succ (es : List Employee) :
    ∀ L q, joinLevels es q (L + 1) =
      joinLevels es q L ++ reportsOfIds es (frontQueue es q L) := by
  intro L
  induction L with
  | zero => intro q; simp [joinLevels, frontQueue]
  | succ L ih =>
    intro q
    show reportsOfIds es q ++ joinLevels es ((reportsOfIds es q).map (·.id)) (L + 1) = _
    rw [ih]
    show _ = (reportsOfIds es q ++
        joinLevels es ((reportsOfIds es q).map (·.id)) L) ++ _
    rw [List.append_assoc]
    rfl

theorem specLevel_eq_front (es : List Employee) (x : Nat) :
    ∀ k, specLevel es x k = reportsOfIds es (frontQueue es [x] k) := by
  intro k
  induction k with
  | zero => simp [specLevel, frontQueue, reportsOfIds]
  | succ k ih =>
    show (specLevel es x k).flatMap (fun p => directReports es p.id) = _
    rw [ih, frontQueue_succ]
    simp only [reportsOfIds]
    rw [List.flatMap_map]

theorem specEnum_eq_join (es : List Employee) (x : Nat) :
    ∀ L, specEnum es x L = joinLevels es [x] L := by
  intro L
  induction L with
  | zero => rfl
  | succ L ih =>
    rw [specEnum, List.range_succ, List.flatMap_append, joinLevels_succ,
      ← specLevel_eq_front, ← ih]
    simp [specEnum]

/-- Every terminating run of the loop equals the spec's breadth-first
enumeration up to its first empty level. -/
theorem aux_some_specEnum {es : List Employee} {fuel x : Nat} {out : List Employee}
    (h : getAllReportsAux es fuel [x] = some out) :
    ∃ L, out = specEnum es x L ∧ specLevel es x L = [] := by
  obtain ⟨L, h1, h2⟩ := aux_some_characterize fuel [x] out h
  refine ⟨L, by rw [h1, specEnum_eq_join], ?_⟩
  rw [specLevel_eq_front, h2]
  rfl

/-! Infrastructure for the at-most-once part: with pairwise-distinct
identifiers, every level member's manager chain leads back to the root, so a
record in two levels would exhibit a manager cycle — which would keep every
level non-empty, contradicting the terminating run's empty level. -/

theorem findRecord_some {es : List Employee} {i : Nat} {e : Employee}
    (h : findRecord es i = some e) : e ∈ es ∧ e.id = i := by
  refine ⟨List.mem_of_find?_eq_some h, ?_⟩
  have := List.find?_some h
  simpa using this

theorem findRecord_self {es : List Employee} (hnd : (idsOf es).Nodup) {e : Employee}
    (he : e ∈ es) : findRecord es e.id = some e := by
  induction es with
  | nil => cases he
  | cons a t ih =>
    have hndc : (a.id :: idsOf t).Nodup := by simpa [idsOf] using hnd
    rcases List.mem_cons.1 he with rfl | hmem
    · exact List.find?_cons_of_pos _ (by simp)
    · have hne : (a.id == e.id) = false := by
        simp only [beq_eq_false_iff_ne, ne_eq]
        intro heq
        exact (List.nodup_cons.1 hndc).1 (heq ▸ List.mem_map.2 ⟨e, hmem, rfl⟩)
      rw [findRecord, List.find?_cons]
      simp only [hne]
      exact ih (List.nodup_cons.1 hndc).2 hmem

theorem iterOpt_add (f : Nat → Option Nat) :
    ∀ a b i, iterOpt f (a + b) i = (iterOpt f a i).bind (iterOpt f b) := by
  intro a
  induction a with
  | zero => intro b i; simp [iterOpt]
  | succ a ih =>
    intro b i
    have harith : a + 1 + b = (a + b) + 1 := by omega
    rw [harith]
    show (f i).bind (iterOpt f (a + b)) = ((f i).bind (iterOpt f a)).bind (iterOpt f b)
    cases f i with
    | none => rfl
    | some z => simpa using ih b z

theorem iterOpt_last {f : Nat → Option Nat} {t i j : Nat}
    (h : iterOpt f (t + 1) i = some j) :
    ∃ w, iterOpt f t i = some w ∧ f w = some j := by
  rw [iterOpt_add f t 1 i] at h
  cases hw : iterOpt f t i with
  | none => rw [hw] at h; cases h
  | some w =>
    rw [hw] at h
    have h1 : iterOpt f 1 w = some j := by simpa using h
    refine ⟨w, rfl, ?_⟩
    cases hfw : f w with
    | none =>
      have : (f w).bind (iterOpt f 0) = some j := h1
      rw [hfw] at this
      cases this
    | some z =>
      have : (f w).bind (iterOpt f 0) = some j := h1
      rw [hfw] at this
      simpa [iterOpt] using this

theorem specLevel_subset {es : List Employee} {x : Nat} :
    ∀ k e, e ∈ specLevel es x k → e ∈ es := by
  intro k
  induction k with
  | zero => intro e he; exact (List.mem_filter.1 he).1
  | succ k ih =>
    intro e he
    obtain ⟨p, hp, hep⟩ := List.mem_flatMap.1 he
    exact (List.mem_filter.1 hep).1

theorem mem_directReports {es : List Employee} {i : Nat} {e : Employee} :
    e ∈ directReports es i ↔ e ∈ es ∧ e.managerId = some i := by
  simp [directReports]

theorem specLevel_iter {es : List Employee} (hnd : (idsOf es).Nodup) {x : Nat} :
    ∀ k e, e ∈ specLevel es x k → iterOpt (mgrStep es) (k + 1) e.id = some x := by
  intro k
  induction k with
  | zero =>
    intro e he
    have hmem := mem_directReports.1 he
    show (mgrStep es e.id).bind (iterOpt (mgrStep es) 0) = some x
    unfold mgrStep
    rw [findRecord_self hnd hmem.1]
    simp [hmem.2, iterOpt]
  | succ k ih =>
    intro e he
    obtain ⟨p, hp, hep⟩ := List.mem_flatMap.1 he
    have hmem := mem_directReports.1 hep
    show (mgrStep es e.id).bind (iterOpt (mgrStep es) (k + 1)) = some x
    unfold mgrStep
    rw [findRecord_self hnd hmem.1]
    simpa [hmem.2] using ih p hp

theorem cycle_pumps {es : List Employee} {x d : Nat} (hd : 1 ≤ d)
    (hcyc : iterOpt (mgrStep es) d x = some x) :
    ∀ k, ∃ e, e ∈ specLevel es x k := by
  have hinv : ∀ k, ∃ z e, (∃ j, iterOpt (mgrStep es) j x = some z) ∧
      (∃ t, 1 ≤ t ∧ iterOpt (mgrStep es) t z = some x) ∧
      findRecord es z = some e ∧ e ∈ specLevel es x k := by
    intro k
    induction k with
    | zero =>
      have hcyc' : iterOpt (mgrStep es) ((d - 1) + 1) x = some x := by
        rw [show (d - 1) + 1 = d by omega]
        exact hcyc
      obtain ⟨w, hw, hmw⟩ := iterOpt_last hcyc'
      unfold mgrStep at hmw
      cases hfind : findRecord es w with
      | none => rw [hfind] at hmw; cases hmw
      | some e =>
        rw [hfind] at hmw
        simp only [Option.some_bind] at hmw
        have he : e ∈ es := (findRecord_some hfind).1
        refine ⟨w, e, ⟨d - 1, hw⟩, ⟨1, le_refl 1, ?_⟩, hfind, ?_⟩
        · show (mgrStep es w).bind (iterOpt (mgrStep es) 0) = some x
          unfold mgrStep
          rw [hfind]
          simp [hmw, iterOpt]
        · show e ∈ directReports es x
          exact mem_directReports.2 ⟨he, hmw⟩
    | succ k ihk =>
      obtain ⟨z, e, ⟨j, hj⟩, ⟨t, ht1, ht⟩, hfind, hlev⟩ := ihk
      have hcycz : iterOpt (mgrStep es) ((t + j - 1) + 1) z = some z := by
        rw [show (t + j - 1) + 1 = t + j by omega, iterOpt_add, ht]
        simpa using hj
      obtain ⟨w, hw, hmw⟩ := iterOpt_last hcycz
      unfold mgrStep at hmw
      cases hfind2 : findRecord es w with
      | none => rw [hfind2] at hmw; cases hmw
      | some e2 =>
        rw [hfind2] at hmw
        simp only [Option.some_bind] at hmw
        have he2 : e2 ∈ es := (findRecord_some hfind2).1
        have heid : e.id = z := (findRecord_some hfind).2
        refine ⟨w, e2, ⟨j + (t + j - 1), ?_⟩, ⟨1 + t, by omega, ?_⟩, hfind2, ?_⟩
        · rw [iterOpt_add, hj]
          simpa using hw
        · have h1 : iterOpt (mgrStep es) 1 w = some z := by
            show (mgrStep es w).bind (iterOpt (mgrStep es) 0) = some z
            unfold mgrStep
            rw [hfind2]
            simp [hmw, iterOpt]
          rw [iterOpt_add, h1]
          simpa using ht
        · show e2 ∈ (specLevel es x k).flatMap (fun p => directReports es p.id)
          exact List.mem_flatMap.2 ⟨e, hlev, mem_directReports.2 ⟨he2, heid ▸ hmw⟩⟩
  intro k
  obtain ⟨z, e, _, _, _, hlev⟩ := hinv k
  exact ⟨e, hlev⟩

theorem specLevel_ids_nodup {es : List Employee} (hnd : (idsOf es).Nodup) (x : Nat) :
    ∀ k, ((specLevel es x k).map (·.id)).Nodup := by
  have hnd' : (es.map (·.id)).Nodup := hnd
  have hfilter : ∀ i : Nat, ((directReports es i).map (·.id)).Nodup :=
    fun i => hnd'.sublist ((List.filter_sublist es).map (·.id))
  intro k
  induction k with
  | zero => exact hfilter x
  | succ k ih =>
    show (((specLevel es x k).flatMap (fun p => directReports es p.id)).map (·.id)).Nodup
    rw [List.map_flatMap]
    refine List.nodup_flatMap.2 ⟨fun p _ => hfilter p.id, ?_⟩
    have hrecnodup : (specLevel es x k).Nodup := ih.of_map
    refine List.Pairwise.imp_of_mem ?_ hrecnodup
    intro p q hp hq hpq i hip hiq
    obtain ⟨r1, hr1, hr1i⟩ := List.mem_map.1 hip
    obtain ⟨r2, hr2, hr2i⟩ := List.mem_map.1 hiq
    have hr1m := mem_directReports.1 hr1
    have hr2m := mem_directReports.1 hr2
    have hr12 : r1 = r2 :=
      List.inj_on_of_nodup_map hnd' hr1m.1 hr2m.1 (by rw [hr1i, hr2i])
    have hpid : p.id = q.id := by
      have h1 := hr1m.2
      have h2 := hr2m.2
      rw [hr12, h2] at h1
      exact (Option.some.inj h1).symm
    exact hpq (List.inj_on_of_nodup_map hnd'
      (specLevel_subset k p hp) (specLevel_subset k q hq) hpid)

theorem specLevel_disjoint {es : List Employee} (hnd : (idsOf es).Nodup) {x L : Nat}
    (hL : specLevel es x L = []) :
    ∀ j k e, j < k → e ∈ specLevel es x j → e ∈ specLevel es x k → False := by
  intro j k e hjk hej hek
  have h1 := specLevel_iter hnd j e hej
  have h2 := specLevel_iter hnd k e hek
  have h3 : iterOpt (mgrStep es) (k - j) x = some x := by
    rw [show k + 1 = (j + 1) + (k - j) by omega, iterOpt_add, h1] at h2
    simpa using h2
  obtain ⟨e', he'⟩ := cycle_pumps (by omega) h3 L
  rw [hL] at he'
  cases he'

theorem specEnum_nodup {es : List Employee} (hnd : (idsOf es).Nodup) {x L0 : Nat}
    (hL : specLevel es x L0 = []) : ∀ L, (specEnum es x L).Nodup := by
  intro L
  induction L with
  | zero => simp [specEnum]
  | succ L ih =>
    have hsucc : specEnum es x (L + 1) = specEnum es x L ++ specLevel es x L := by
      rw [specEnum, List.range_succ, List.flatMap_append]
      simp [specEnum]
    rw [hsucc]
    refine ih.append ((specLevel_ids_nodup hnd x L).of_map) ?_
    intro e he hel
    obtain ⟨j, hj, hej⟩ : ∃ j < L, e ∈ specLevel es x j := by
      simpa [specEnum, List.mem_flatMap, List.mem_range] using he
    exact specLevel_disjoint hnd hL j L e hj hej hel

/-- C3 (amended): every terminating run of `getAllReports` enumerates
descendants breadth-first — it equals the concatenation of the spec's
levels (records whose parent reference is `rootId` first, then their direct
reports, level by level) up to the first empty level; and when the
collection's identifiers are pairwise distinct, each record appears at most
once in the output. -/
theorem getAllReports_bfs (es : List Employee) (fuel x : Nat) (out : List Employee)
    (h : getAllReportsAux es fuel [x] = some out) :
    (∃ L, out = specEnum es x L ∧ specLevel es x L = []) ∧
    ((idsOf es).Nodup → out.Nodup) := by
  obtain ⟨L, h1, h2⟩ := aux_some_specEnum h
  exact ⟨⟨L, h1, h2⟩, fun hnd => h1 ▸ specEnum_nodup hnd h2 L⟩

/-- Witness for C3 on the sample chain: the run from the root yields the
level-order listing `[joe, linda, john, ron]`, without repetition. -/
theorem getAllReports_bfs_witness :
    (∃ L, [joe, linda, john, ron] = specEnum sample 1 L ∧
      specLevel sample 1 L = []) ∧
    ([joe, linda, john, ron] : List Employee).Nodup :=
  ⟨(getAllReports_bfs sample 10 1 [joe, linda, john, ron] (by decide)).1,
   (getAllReports_bfs sample 10 1 [joe, linda, john, ron] (by decide)).2 (by decide)⟩

/-! ## C2 — completeness of the built forest on well-formed collections

Strategy: with pairwise-distinct identifiers and an acyclic resolved parent
relation, every identifier occurs in the flattened forest exactly once —
it occurs in the subtree of `i` exactly when `i` lies on its (unique)
resolved manager chain, and that chain ends in exactly one root. -/

/-- `i` lies on the resolved manager chain of `j` (possibly `i = j`). -/
def IsTreeAncestor (es : List Employee) (i j : Nat) : Prop :=
  ∃ t, iterOpt (treeParent es) t j = some i

theorem mem_buildTreeChildren {es : List Employee} {i c : Nat} :
    c ∈ buildTreeChildren es i ↔
      containsId es i = true ∧ ∃ e ∈ es, e.id = c ∧ e.managerId = some i := by
  rw [buildTreeChildren]
  by_cases hc : containsId es i = true
  · rw [if_pos hc]
    constructor
    · intro hmem
      obtain ⟨e, hef, rfl⟩ := List.mem_map.1 hmem
      obtain ⟨he, hmid⟩ := List.mem_filter.1 hef
      exact ⟨hc, e, he, rfl, by simpa using hmid⟩
    · rintro ⟨-, e, he, rfl, hmid⟩
      exact List.mem_map.2 ⟨e, List.mem_filter.2 ⟨he, by simpa using hmid⟩, rfl⟩
  · rw [if_neg hc]
    simp only [List.not_mem_nil, false_iff]
    rintro ⟨hc', -⟩
    exact hc hc'

theorem buildTreeChildren_containsId {es : List Employee} {i c : Nat}
    (h : c ∈ buildTreeChildren es i) : containsId es c = true := by
  obtain ⟨_, e, he, rfl, _⟩ := mem_buildTreeChildren.1 h
  exact containsId_eq_true_iff.2 ⟨e, he, rfl⟩

theorem treeParent_of_child {es : List Employee} (hnd : (idsOf es).Nodup)
    {i c : Nat} (h : c ∈ buildTreeChildren es i) : treeParent es c = some i := by
  obtain ⟨hci, e, he, rfl, hmid⟩ := mem_buildTreeChildren.1 h
  rw [treeParent, findRecord_self hnd he]
  simp [hmid, hci]

theorem treeParent_some {es : List Employee} {i m : Nat}
    (h : treeParent es i = some m) :
    ∃ e, findRecord es i = some e ∧ e.managerId = some m ∧ containsId es m = true := by
  rw [treeParent] at h
  cases hfind : findRecord es i with
  | none => rw [hfind] at h; cases h
  | some e =>
    rw [hfind, Option.some_bind] at h
    cases hmid : e.managerId with
    | none => rw [hmid] at h; cases h
    | some m' =>
      rw [hmid, Option.some_bind] at h
      by_cases hc : containsId es m' = true
      · rw [if_pos hc] at h
        cases h
        exact ⟨e, rfl, hmid, hc⟩
      · rw [if_neg hc] at h; cases h

theorem treeParent_rank {es : List Employee} {rank : Nat → Nat}
    (hok : rankOk es rank = true) {i m : Nat} (h : treeParent es i = some m) :
    rank m < rank i ∧ rankPos es rank m < rankPos es rank i ∧
      containsId es i = true ∧ containsId es m = true := by
  obtain ⟨e, hfind, hmid, hc⟩ := treeParent_some h
  obtain ⟨he, heid⟩ := findRecord_some hfind
  refine ⟨heid ▸ rankOk_spec hok e he m hmid hc, ?_, ?_, hc⟩
  · exact heid ▸ rankPos_lt_of_edge hok he hmid hc
  · exact containsId_eq_true_iff.2 ⟨e, he, heid⟩

theorem iter_treeParent_rank {es : List Employee} {rank : Nat → Nat}
    (hok : rankOk es rank = true) :
    ∀ t i z, iterOpt (treeParent es) t i = some z →
      rank z ≤ rank i ∧ (1 ≤ t → rank z < rank i) := by
  intro t
  induction t with
  | zero =>
    intro i z h
    cases h
    exact ⟨le_refl _, by omega⟩
  | succ t ih =>
    intro i z h
    obtain ⟨w, hw, hpw⟩ := iterOpt_last h
    have h2 := (treeParent_rank hok hpw).1
    rcases Nat.eq_zero_or_pos t with rfl | hpos
    · cases hw
      exact ⟨le_of_lt h2, fun _ => h2⟩
    · have h1 := (ih i w hw).2 hpos
      exact ⟨le_of_lt (h2.trans h1), fun _ => h2.trans h1⟩

theorem no_iter_self {es : List Employee} {rank : Nat → Nat}
    (hok : rankOk es rank = true) {t i : Nat} (ht : 1 ≤ t)
    (h : iterOpt (treeParent es) t i = some i) : False :=
  lt_irrefl _ ((iter_treeParent_rank hok t i i h).2 ht)

theorem sum_map_eq_zero {α : Type} {l : List α} {g : α → Nat}
    (h : ∀ c ∈ l, g c = 0) : (l.map g).sum = 0 := by
  induction l with
  | nil => rfl
  | cons a t ih =>
    simp only [List.map_cons, List.sum_cons, h a (List.mem_cons_self a t),
      ih (fun c hc => h c (List.mem_cons_of_mem a hc))]

theorem sum_map_eq_one {α : Type} {l : List α} {g : α → Nat} {w : α}
    (hnodupl : l.Nodup) (hw : w ∈ l) (hgw : g w = 1)
    (hothers : ∀ c ∈ l, c ≠ w → g c = 0) : (l.map g).sum = 1 := by
  induction l with
  | nil => cases hw
  | cons a t ih =>
    rcases List.mem_cons.1 hw with rfl | hmem
    · have htz : (t.map g).sum = 0 := by
        refine sum_map_eq_zero (fun c hc => hothers c (List.mem_cons_of_mem _ hc) ?_)
        intro hcw
        exact (List.nodup_cons.1 hnodupl).1 (hcw ▸ hc)
      simp [hgw, htz]
    · have haz : g a = 0 := by
        refine hothers a (List.mem_cons_self a t) ?_
        intro haw
        exact (List.nodup_cons.1 hnodupl).1 (haw ▸ hmem)
      have := ih (List.nodup_cons.1 hnodupl).2 hmem
        (fun c hc hcw => hothers c (List.mem_cons_of_mem a hc) hcw)
      simp [haz, this]

theorem subtreeIds_containsId {es : List Employee} :
    ∀ fuel i, containsId es i = true →
      ∀ j ∈ buildTreeSubtreeIds es fuel i, containsId es j = true := by
  intro fuel
  induction fuel with
  | zero => intro i _ j hj; cases hj
  | succ fuel ih =>
    intro i hi j hj
    rcases List.mem_cons.1 hj with rfl | hmem
    · exact hi
    · obtain ⟨l, hl, hjl⟩ := List.mem_flatten.1 hmem
      obtain ⟨c, hc, rfl⟩ := List.mem_map.1 hl
      exact ih c (buildTreeChildren_containsId hc) j hjl

theorem buildTreeChildren_nodup {es : List Employee} (hnd : (idsOf es).Nodup)
    (i : Nat) : (buildTreeChildren es i).Nodup := by
  have hnd' : (es.map (·.id)).Nodup := hnd
  rw [buildTreeChildren]
  by_cases hc : containsId es i = true
  · rw [if_pos hc]
    exact hnd'.sublist ((List.filter_sublist es).map (·.id))
  · rw [if_neg hc]
    exact List.nodup_nil

theorem buildTreeRoots_nodup {es : List Employee} (hnd : (idsOf es).Nodup) :
    (buildTreeRoots es).Nodup := by
  have hnd' : (es.map (·.id)).Nodup := hnd
  show ((es.filter (isRootRecord es)).map (·.id)).Nodup
  exact hnd'.sublist ((List.filter_sublist es).map (·.id))

theorem buildTreeRoots_spec {es : List Employee} (hnd : (idsOf es).Nodup) {r : Nat}
    (h : r ∈ buildTreeRoots es) :
    containsId es r = true ∧ treeParent es r = none := by
  obtain ⟨e, hef, rfl⟩ := List.mem_map.1 h
  obtain ⟨he, hroot⟩ := List.mem_filter.1 hef
  refine ⟨containsId_eq_true_iff.2 ⟨e, he, rfl⟩, ?_⟩
  rw [treeParent, findRecord_self hnd he, Option.some_bind]
  rw [isRootRecord] at hroot
  cases hmid : e.managerId with
  | none => rfl
  | some m =>
    rw [hmid] at hroot
    rw [Option.some_bind, if_neg (by simpa using hroot)]

theorem isTreeAncestor_self (es : List Employee) (i : Nat) : IsTreeAncestor es i i :=
  ⟨0, rfl⟩

/-- Two children of the same node cannot both lie on one id's manager
chain: the chain would have to climb from one child through their common
parent back down to the other, contradicting the rank. -/
theorem unique_child_on_chain {es : List Employee} {rank : Nat → Nat}
    (hok : rankOk es rank = true) (hnd : (idsOf es).Nodup) {i j c w : Nat}
    (hc : c ∈ buildTreeChildren es i) (hw : w ∈ buildTreeChildren es i)
    (hrc : IsTreeAncestor es c j) (hrw : IsTreeAncestor es w j) : c = w := by
  have hmain : ∀ c' w' s t, c' ∈ buildTreeChildren es i → w' ∈ buildTreeChildren es i →
      iterOpt (treeParent es) s j = some c' → iterOpt (treeParent es) t j = some w' →
      s < t → False := by
    intro c' w' s t hc' hw' hs ht hlt
    have hsplit : iterOpt (treeParent es) (s + (t - s)) j = some w' := by
      rw [show s + (t - s) = t by omega]
      exact ht
    rw [iterOpt_add, hs, Option.some_bind] at hsplit
    have h2 : iterOpt (treeParent es) (1 + (t - s - 1)) c' = some w' := by
      rw [show 1 + (t - s - 1) = t - s by omega]
      exact hsplit
    rw [iterOpt_add] at h2
    have h1 : iterOpt (treeParent es) 1 c' = some i := by
      show (treeParent es c').bind (iterOpt (treeParent es) 0) = some i
      rw [treeParent_of_child hnd hc']
      rfl
    rw [h1, Option.some_bind] at h2
    have hrankw : rank i < rank w' := by
      obtain ⟨hci', e, he, heid, hmid⟩ := mem_buildTreeChildren.1 hw'
      exact heid ▸ rankOk_spec hok e he i hmid hci'
    have := (iter_treeParent_rank hok _ _ _ h2).1
    omega
  obtain ⟨s, hs⟩ := hrc
  obtain ⟨t, ht⟩ := hrw
  rcases Nat.lt_trichotomy s t with hlt | heq | hgt
  · exact (hmain c w s t hc hw hs ht hlt).elim
  · subst heq
    rw [hs] at ht
    exact Option.some.inj ht
  · exact (hmain w c t s hw hc ht hs hgt).elim

/-- The counting core: with distinct ids and a topological rank, an id `j`
occurs in the (sufficiently fuelled) subtree of `i` once when `i` lies on
`j`'s manager chain and not at all otherwise. -/
theorem subtree_count {es : List Employee} {rank : Nat → Nat}
    (hnd : (idsOf es).Nodup) (hok : rankOk es rank = true) :
    ∀ fuel i, containsId es i = true → es.length - rankPos es rank i ≤ fuel →
      ∀ j, (IsTreeAncestor es i j → (buildTreeSubtreeIds es fuel i).count j = 1) ∧
        (¬ IsTreeAncestor es i j → (buildTreeSubtreeIds es fuel i).count j = 0) := by
  intro fuel
  induction fuel using Nat.strong_induction_on with
  | _ fuel ih =>
    intro i hi hfuel j
    have hposlt : rankPos es rank i < es.length := rankPos_lt_length rank hi
    obtain ⟨f, rfl⟩ : ∃ f, fuel = f + 1 := ⟨fuel - 1, by omega⟩
    have hchild : ∀ c ∈ buildTreeChildren es i,
        containsId es c = true ∧ es.length - rankPos es rank c ≤ f := by
      intro c hcmem
      have hcci := buildTreeChildren_containsId hcmem
      refine ⟨hcci, ?_⟩
      obtain ⟨hci', e, he, heid, hmid⟩ := mem_buildTreeChildren.1 hcmem
      have h1 : rankPos es rank i < rankPos es rank e.id :=
        rankPos_lt_of_edge hok he hmid hci'
      rw [heid] at h1
      have h2 : rankPos es rank c < es.length := rankPos_lt_length rank hcci
      omega
    have hcount : (buildTreeSubtreeIds es (f + 1) i).count j =
        ((buildTreeChildren es i).map
          (fun c => (buildTreeSubtreeIds es f c).count j)).sum +
          (if j = i then 1 else 0) := by
      show (i :: ((buildTreeChildren es i).map (buildTreeSubtreeIds es f)).flatten).count j = _
      rw [List.count_cons, List.count_flatten, List.map_map]
      have hif : (if (i == j) = true then 1 else 0) = (if j = i then 1 else 0) := by
        by_cases h : j = i
        · rw [if_pos h, if_pos (by simp [h])]
        · rw [if_neg h, if_neg (by simp only [beq_iff_eq]; exact fun he => h he.symm)]
      rw [hif]
      rfl
    by_cases hji : j = i
    · refine ⟨fun _ => ?_, fun hna => absurd ⟨0, by rw [hji]; rfl⟩ hna⟩
      rw [hcount, if_pos hji]
      have hz : ∀ c ∈ buildTreeChildren es i,
          (buildTreeSubtreeIds es f c).count j = 0 := by
        intro c hcmem
        refine (ih f (by omega) c (hchild c hcmem).1 (hchild c hcmem).2 j).2 ?_
        rintro ⟨s, hs⟩
        have hcyc : iterOpt (treeParent es) (s + 1) j = some i := by
          rw [iterOpt_add, hs, Option.some_bind]
          show (treeParent es c).bind (iterOpt (treeParent es) 0) = some i
          rw [treeParent_of_child hnd hcmem]
          rfl
        rw [← hji] at hcyc
        exact no_iter_self hok (by omega) hcyc
      rw [sum_map_eq_zero hz]
    · constructor
      · rintro ⟨t, ht⟩
        have htpos : 1 ≤ t := by
          rcases Nat.eq_zero_or_pos t with rfl | h
          · exact absurd (Option.some.inj ht) hji
          · exact h
        obtain ⟨t', rfl⟩ : ∃ t', t = t' + 1 := ⟨t - 1, by omega⟩
        obtain ⟨w, hw, hpw⟩ := iterOpt_last ht
        have hwch : w ∈ buildTreeChildren es i := by
          obtain ⟨e, hfind, hmid, hci2⟩ := treeParent_some hpw
          obtain ⟨he, heid⟩ := findRecord_some hfind
          exact mem_buildTreeChildren.2 ⟨hci2, e, he, heid, hmid⟩
        rw [hcount, if_neg hji]
        have hw1 : (buildTreeSubtreeIds es f w).count j = 1 :=
          (ih f (by omega) w (hchild w hwch).1 (hchild w hwch).2 j).1 ⟨t', hw⟩
        have hothers : ∀ c ∈ buildTreeChildren es i, c ≠ w →
            (buildTreeSubtreeIds es f c).count j = 0 := by
          intro c hcmem hcw
          refine (ih f (by omega) c (hchild c hcmem).1 (hchild c hcmem).2 j).2 ?_
          intro hrc
          exact hcw (unique_child_on_chain hok hnd hcmem hwch hrc ⟨t', hw⟩)
        rw [sum_map_eq_one (buildTreeChildren_nodup hnd i) hwch hw1 hothers]
      · intro hna
        rw [hcount, if_neg hji]
        have hz : ∀ c ∈ buildTreeChildren es i,
            (buildTreeSubtreeIds es f c).count j = 0 := by
          intro c hcmem
          refine (ih f (by omega) c (hchild c hcmem).1 (hchild c hcmem).2 j).2 ?_
          rintro ⟨s, hs⟩
          refine hna ⟨s + 1, ?_⟩
          rw [iterOpt_add, hs, Option.some_bind]
          show (treeParent es c).bind (iterOpt (treeParent es) 0) = some i
          rw [treeParent_of_child hnd hcmem]
          rfl
        rw [sum_map_eq_zero hz]

/-- Every id of the collection has a root of the forest on its manager
chain: climb the chain; the rank position strictly decreases. -/
theorem root_exists {es : List Employee} {rank : Nat → Nat}
    (hnd : (idsOf es).Nodup) (hok : rankOk es rank = true) :
    ∀ j, containsId es j = true →
      ∃ r ∈ buildTreeRoots es, IsTreeAncestor es r j := by
  have main : ∀ p j, rankPos es rank j ≤ p → containsId es j = true →
      ∃ r ∈ buildTreeRoots es, IsTreeAncestor es r j := by
    intro p
    induction p using Nat.strong_induction_on with
    | _ p ihp =>
      intro j hle hj
      obtain ⟨e, he, heid⟩ := containsId_eq_true_iff.1 hj
      by_cases hroot : isRootRecord es e = true
      · exact ⟨j, List.mem_map.2 ⟨e, List.mem_filter.2 ⟨he, hroot⟩, heid⟩,
          isTreeAncestor_self es j⟩
      · have hmr : ∃ m, e.managerId = some m ∧ containsId es m = true := by
          rw [isRootRecord] at hroot
          cases hmid : e.managerId with
          | none => rw [hmid] at hroot; simp at hroot
          | some m =>
            rw [hmid] at hroot
            exact ⟨m, rfl, by simpa using hroot⟩
        obtain ⟨m, hmid, hcm⟩ := hmr
        have hpj : treeParent es j = some m := by
          rw [← heid, treeParent, findRecord_self hnd he]
          simp [hmid, hcm]
        have hrlt : rankPos es rank m < rankPos es rank j := by
          have := rankPos_lt_of_edge hok he hmid hcm
          rwa [heid] at this
        obtain ⟨r, hr, t, hrt⟩ := ihp (rankPos es rank m) (by omega) m (le_refl _) hcm
        refine ⟨r, hr, 1 + t, ?_⟩
        rw [iterOpt_add]
        have h1 : iterOpt (treeParent es) 1 j = some m := by
          show (treeParent es j).bind (iterOpt (treeParent es) 0) = some m
          rw [hpj]
          rfl
        rw [h1, Option.some_bind]
        exact hrt
  intro j hj
  exact main (rankPos es rank j) j (le_refl _) hj

/-- At most one root lies on a given id's manager chain: the chain cannot
continue past a root. -/
theorem root_unique {es : List Employee} (hnd : (idsOf es).Nodup) {j r1 r2 : Nat}
    (h1 : r1 ∈ buildTreeRoots es) (h2 : r2 ∈ buildTreeRoots es)
    (ha1 : IsTreeAncestor es r1 j) (ha2 : IsTreeAncestor es r2 j) : r1 = r2 := by
  have hmain : ∀ a b ra rb, ra ∈ buildTreeRoots es → rb ∈ buildTreeRoots es →
      iterOpt (treeParent es) a j = some ra → iterOpt (treeParent es) b j = some rb →
      a < b → False := by
    intro a b ra rb hra _ haj hbj hab
    have hsplit : iterOpt (treeParent es) (a + (b - a)) j = some rb := by
      rw [show a + (b - a) = b by omega]
      exact hbj
    rw [iterOpt_add, haj, Option.some_bind] at hsplit
    rw [show b - a = 1 + (b - a - 1) by omega, iterOpt_add] at hsplit
    have hnone : iterOpt (treeParent es) 1 ra = none := by
      show (treeParent es ra).bind (iterOpt (treeParent es) 0) = none
      rw [(buildTreeRoots_spec hnd hra).2]
      rfl
    rw [hnone] at hsplit
    cases hsplit
  obtain ⟨s, hs⟩ := ha1
  obtain ⟨t, ht⟩ := ha2
  rcases Nat.lt_trichotomy s t with hlt | heq | hgt
  · exact (hmain s t r1 r2 h1 h2 hs ht hlt).elim
  · subst heq
    rw [hs] at ht
    exact Option.some.inj ht
  · exact (hmain t s r2 r1 h2 h1 ht hs hgt).elim

/-- Identifier-count correspondence between the flattened forest and the
input collection. -/
theorem forest_count {es : List Employee} (hnd : (idsOf es).Nodup)
    (hac : PathAcyclic es) :
    ∀ j, (buildTreeForestIds es).count j = (idsOf es).count j := by
  obtain ⟨rank, hok⟩ := pathAcyclic_ranked hac
  intro j
  by_cases hj : containsId es j = true
  · have hforest : (buildTreeForestIds es).count j = 1 := by
      show ((buildTreeRoots es).map (buildTreeSubtreeIds es es.length)).flatten.count j = 1
      rw [List.count_flatten, List.map_map]
      obtain ⟨r, hr, hanc⟩ := root_exists hnd hok j hj
      have hroots : ∀ r' ∈ buildTreeRoots es, containsId es r' = true ∧
          es.length - rankPos es rank r' ≤ es.length :=
        fun r' hr' => ⟨(buildTreeRoots_spec hnd hr').1, by omega⟩
      refine sum_map_eq_one (buildTreeRoots_nodup hnd) hr ?_ ?_
      · exact (subtree_count hnd hok es.length r (hroots r hr).1 (hroots r hr).2 j).1 hanc
      · intro r' hr' hne
        refine (subtree_count hnd hok es.length r' (hroots r' hr').1 (hroots r' hr').2 j).2 ?_
        intro hanc'
        exact hne (root_unique hnd hr' hr hanc' hanc)
    have hjm : j ∈ idsOf es := by
      obtain ⟨e, he, heid⟩ := containsId_eq_true_iff.1 hj
      exact List.mem_map.2 ⟨e, he, heid⟩
    rw [hforest, List.count_eq_one_of_mem hnd hjm]
  · have h1 : (buildTreeForestIds es).count j = 0 := by
      rw [List.count_eq_zero]
      intro hmem
      obtain ⟨l, hl, hjl⟩ := List.mem_flatten.1 hmem
      obtain ⟨r, hr, rfl⟩ := List.mem_map.1 hl
      exact hj (subtreeIds_containsId es.length r (buildTreeRoots_spec hnd hr).1 j hjl)
    have h2 : (idsOf es).count j = 0 := by
      rw [List.count_eq_zero]
      intro hmem
      obtain ⟨e, he, heid⟩ := List.mem_map.1 hmem
      exact hj (containsId_eq_true_iff.2 ⟨e, he, heid⟩)
    rw [h1, h2]

/-- C2 (amended): for every non-empty record collection with
pairwise-distinct identifiers whose resolved parent relation is acyclic,
the flattened forest built by `buildTree` is a permutation of the input's
identifiers — the total node count (summing every root and all of its
descendants) equals the input record count and every input identifier
appears exactly once in the forest. -/
theorem buildTree_completeness (es : List Employee) (_hne : es ≠ [])
    (hnd : (idsOf es).Nodup) (hac : PathAcyclic es) :
    (buildTreeForestIds es).Perm (idsOf es) ∧
    (buildTreeForestIds es).length = es.length ∧
    ∀ j ∈ idsOf es, (buildTreeForestIds es).count j = 1 := by
  have hperm : (buildTreeForestIds es).Perm (idsOf es) :=
    List.perm_iff_count.2 (forest_count hnd hac)
  refine ⟨hperm, ?_, fun j hj => ?_⟩
  · have := hperm.length_eq
    simpa [idsOf] using this
  · rw [forest_count hnd hac j]
    exact List.count_eq_one_of_mem hnd hj

/-- Witness for C2 on the five-record sample chain. -/
theorem buildTree_completeness_witness :
    (buildTreeForestIds sample).Perm (idsOf sample) ∧
    (buildTreeForestIds sample).length = sample.length ∧
    ∀ j ∈ idsOf sample, (buildTreeForestIds sample).count j = 1 :=
  buildTree_completeness sample (by decide) (by decide)
    (ranked_pathAcyclic ⟨fun i => i, by decide⟩)

end OrgChart
